import Mathlib

/-!
Shallow embedding of the trade-analysis engine (`src/app.py`) of the
repository `harunamitrader/trade_analysis_app`.

The engine works on rows of a brokerage trade-history export.  We model:

* a row (`RawExec`) with the fields the core reads: 銘柄名 (instrument),
  取引区分 (kind tag), 売買区分 (direction), 約定日時 (timestamp), 約定数量
  (quantity), 約定単価 (execution price), 建単価 (opening price of a close),
  実現損益（円貨） (realized profit);
* timestamps as minutes since the epoch (an `Int`), so `dt.hour` is
  `(t % 1440) / 60` and `dt - 1 day` is `t - 1440`;
* all numeric columns as `ℚ` (the Python code uses floats; rational
  arithmetic realizes the "exact" reading of the arithmetic identities);
* `process_trades` (the FIFO position matcher) and `analyze_summary`
  (the aggregator), translated statement by statement.

`float('inf')` values of the aggregator (profit factor, reward-to-risk) are
modelled as `Option ℚ` with `none` standing for +infinity.
-/

namespace TradeApp

/-- Substring test helper: `startsWith s t` is true when `t` is an initial
slice of `s` (on lists of characters). -/
def startsWith [DecidableEq α] : List α → List α → Bool
  | _, [] => true
  | [], _ :: _ => false
  | a :: as, b :: bs => decide (a = b) && startsWith as bs

/-- Substring test helper: `hasSlice s t` is true when `t` occurs
contiguously inside `s`. -/
def hasSlice [DecidableEq α] : List α → List α → Bool
  | [], sub => decide (sub = ([] : List α))
  | a :: as, sub => startsWith (a :: as) sub || hasSlice as sub

/-- Python's `sub in s` on strings, as used by `str.contains(...)` row
classification and the currency-token test of `src/app.py`. -/
def strContains (s sub : String) : Bool := hasSlice s.data sub.data

/-- One row of the trade-history export, with exactly the columns the core
of `src/app.py` reads, after numeric coercion (`pd.to_numeric(...).fillna(0)`)
and timestamp parsing.  `time` is minutes since the epoch. -/
structure RawExec where
  instrument : String
  kind : String
  side : String
  time : Int
  qty : ℚ
  price : ℚ
  openPrice : ℚ
  profit : ℚ
deriving DecidableEq

/-- Hour-of-day of a timestamp in minutes (`dt.hour` in Python); `%` and
`/` on `Int` are the euclidean operations, which agree with Python's
nonnegative remainder and floor division for positive divisors. -/
def hourOf (t : Int) : Int := (t % 1440) / 60

/-- Calendar-day number of a timestamp in minutes (`dt.date()`). -/
def dayOf (t : Int) : Int := t / 1440

/-- Line 6-9 of `src/app.py`: `get_adjusted_date(dt)` returns
`dt - pd.Timedelta(days=1)` when `dt.hour < 7`, else `dt`. -/
def get_adjusted_date (t : Int) : Int := if hourOf t < 7 then t - 1440 else t

/-- Day number of the adjusted datetime: the date that
`get_adjusted_date(dt).strftime('%Y-%m-%d')` renders. -/
def adjDay (t : Int) : Int := dayOf (get_adjusted_date t)

/-- Gregorian calendar date `(year, month, day)` of a day number counted
from 1970-01-01 (the standard civil-from-days conversion); this is the
triple that `strftime('%Y-%m-%d')` renders for that day. -/
def civilFromDays (z0 : Int) : Int × Int × Int :=
  let z := z0 + 719468
  let era := z / 146097
  let doe := z - era * 146097
  let yoe := (doe - doe / 1460 + doe / 36524 - doe / 146096) / 365
  let y := yoe + era * 400
  let doy := doe - (365 * yoe + yoe / 4 - yoe / 100)
  let mp := (5 * doy + 2) / 153
  let d := doy - (153 * mp + 2) / 5 + 1
  let m := if mp < 10 then mp + 3 else mp - 9
  (y + (if m ≤ 2 then 1 else 0), m, d)

/-- The `(year, month)` pair that `strftime('%Y-%m')` renders for a day
number. -/
def ymOf (day : Int) : Int × Int := ((civilFromDays day).1, (civilFromDays day).2.1)

/-- Line 49/73 of `src/app.py`: an instrument is FX when its name contains
one of the currency tokens `'JPY'`, `'USD'`, `'EUR'`; otherwise CFD. -/
def is_fx (name : String) : Bool :=
  strContains name "JPY" || strContains name "USD" || strContains name "EUR"

/-- Line 50/74 of `src/app.py`: the lot-size divisor, 10000 for FX and 1
for CFD. -/
def lot_size (name : String) : ℚ := if is_fx name then 10000 else 1

/-- Line 52/76 of `src/app.py`: the instrument-class label. -/
def trade_type (name : String) : String := if is_fx name then "FX" else "CFD"

/-- Line 55/77 of `src/app.py`: the position side of a closing execution,
inferred from its own direction field. -/
def positionOf (c : RawExec) : String := if c.side = "売" then "ロング" else "ショート"

/-- One opening lot of the matcher (a row of `new_trades`): `idx` is its
row index after `sort_values('約定日時').reset_index(drop=True)`, `origQty`
its `約定数量` and `remaining` its mutable `残り数量` column. -/
structure OpenLot where
  idx : Nat
  instrument : String
  time : Int
  price : ℚ
  origQty : ℚ
  remaining : ℚ
deriving DecidableEq

/-- One output record of the matcher (a dict appended to `results` in
`process_trades`).  `settleDay` is the day number rendered as `決済日` and
`settleYM` the year/month rendered as `決済年月`.  `matchedQty` and `srcIdx`
are bookkeeping for the loop variables `matched_qty` and `match_index`
(raw matched quantity and the consumed open lot's index); the fallback
record stores the close's own quantity and no source index. -/
structure ClosedLot where
  instrument : String
  position : String
  profit : ℚ
  holding : Option Int
  lotQty : ℚ
  tradeType : String
  settleDay : Int
  settleYM : Int × Int
  matchedQty : ℚ
  srcIdx : Option Nat
deriving DecidableEq

/-- Lines 49-67 of `src/app.py`: the ClosedLot emitted for one matched
slice of quantity `m` of closing execution `c` against open lot `l`. -/
def mkMatched (c : RawExec) (l : OpenLot) (m : ℚ) : ClosedLot :=
  { instrument := c.instrument
    position := positionOf c
    profit := if c.qty ≠ 0 then c.profit / c.qty * m else 0
    holding := some (c.time - l.time)
    lotQty := m / lot_size c.instrument
    tradeType := trade_type c.instrument
    settleDay := adjDay c.time
    settleYM := ymOf (adjDay c.time)
    matchedQty := m
    srcIdx := some l.idx }

/-- Lines 72-88 of `src/app.py`: the single fallback ClosedLot emitted when
a closing execution matched no open lot (`is_matched` stayed false).  It
carries the close's own full profit and quantity and no holding time. -/
def mkFallback (c : RawExec) : ClosedLot :=
  { instrument := c.instrument
    position := positionOf c
    profit := c.profit
    holding := none
    lotQty := c.qty / lot_size c.instrument
    tradeType := trade_type c.instrument
    settleDay := adjDay c.time
    settleYM := ymOf (adjDay c.time)
    matchedQty := c.qty
    srcIdx := none }

/-- Lines 35-40 of `src/app.py`: the `potential_matches` filter — same
instrument, open execution price equal to the close's 建単価, positive
remaining quantity, open strictly earlier than the close. -/
def eligible (c : RawExec) (l : OpenLot) : Prop :=
  l.instrument = c.instrument ∧ l.price = c.openPrice ∧ 0 < l.remaining ∧ l.time < c.time

instance eligibleDec (c : RawExec) (l : OpenLot) : Decidable (eligible c l) := by
  unfold eligible; infer_instance

/-- Result of the matching loop (lines 42-70) for one closing execution:
the updated open-lot list, the emitted ClosedLots in emission order, the
final value of the local `closed_qty`, and the `is_matched` flag. -/
structure MatchRes where
  lots : List OpenLot
  outs : List ClosedLot
  leftover : ℚ
  isMatched : Bool
deriving DecidableEq

/-- Lines 42-70 of `src/app.py`: walk the open lots in list order (the
frame is kept sorted by timestamp, so this is oldest first); an eligible
lot with `closed_qty > 0` still to place is consumed by
`matched_qty = min(closed_qty, remaining)`, one ClosedLot is emitted, and
both counters are decremented.  Once `closed_qty ≤ 0` the loop stops
consuming (Python `break`); ineligible lots are left untouched. -/
def runMatches (c : RawExec) : ℚ → List OpenLot → MatchRes
  | q, [] => ⟨[], [], q, false⟩
  | q, l :: ls =>
    if eligible c l ∧ 0 < q then
      let m := min q l.remaining
      let r := runMatches c (q - m) ls
      ⟨{ l with remaining := l.remaining - m } :: r.lots, mkMatched c l m :: r.outs,
        r.leftover, true⟩
    else
      let r := runMatches c q ls
      ⟨l :: r.lots, r.outs, r.leftover, r.isMatched⟩

/-- Lines 30-88 of `src/app.py`: process one closing execution — run the
matching loop starting from `closed_qty = c.qty`, then, when `is_matched`
is still false, append the single fallback ClosedLot. -/
def processClose (lots : List OpenLot) (c : RawExec) : List OpenLot × List ClosedLot :=
  let r := runMatches c c.qty lots
  if r.isMatched then (r.lots, r.outs) else (r.lots, r.outs ++ [mkFallback c])

/-- One step of the outer loop over closing executions: thread the open-lot
state and accumulate the emitted records in `results` order. -/
def stepClose (s : List OpenLot × List ClosedLot) (c : RawExec) :
    List OpenLot × List ClosedLot :=
  let p := processClose s.1 c
  (p.1, s.2 ++ p.2)

/-- Line 19 of `src/app.py`: opening executions are the rows whose 取引区分
contains `'新規'`. -/
def isNew (r : RawExec) : Bool := strContains r.kind "新規"

/-- Line 20 of `src/app.py`: closing executions are the rows whose 取引区分
contains `'決済'` or `'ロスカット'`. -/
def isClose (r : RawExec) : Bool := strContains r.kind "決済" || strContains r.kind "ロスカット"

/-- Opening rows of the export, in file order. -/
def newsOf (rows : List RawExec) : List RawExec := rows.filter isNew

/-- Closing rows of the export, in file order. -/
def closesOf (rows : List RawExec) : List RawExec := rows.filter isClose

/-- Insert a row into a list that is already sorted by timestamp, before
the first row with a timestamp not smaller than it (stable insertion). -/
def insertByTime (r : RawExec) : List RawExec → List RawExec
  | [] => [r]
  | x :: xs => if r.time ≤ x.time then r :: x :: xs else x :: insertByTime r xs

/-- `sort_values(by='約定日時')`: sort rows by timestamp ascending
(stable insertion sort). -/
def sortByTime : List RawExec → List RawExec
  | [] => []
  | r :: rs => insertByTime r (sortByTime rs)

/-- Lines 25-26 of `src/app.py`: the initial open-lot table — opening rows
with `残り数量 = 約定数量`, sorted by timestamp, reindexed `0, 1, ...`. -/
def initLots (rows : List RawExec) : List OpenLot :=
  (sortByTime (newsOf rows)).enum.map fun p =>
    ⟨p.1, p.2.instrument, p.2.time, p.2.price, p.2.qty, p.2.qty⟩

/-- The whole matcher run: closing executions in ascending timestamp order
are folded over the open-lot state, starting from the initial table and an
empty `results` list. -/
def runAll (rows : List RawExec) : List OpenLot × List ClosedLot :=
  (sortByTime (closesOf rows)).foldl stepClose (initLots rows, [])

/-- The matcher state after only the first `k` closing executions have been
processed (every intermediate state of the run is of this form). -/
def runUpTo (rows : List RawExec) (k : Nat) : List OpenLot × List ClosedLot :=
  ((sortByTime (closesOf rows)).take k).foldl stepClose (initLots rows, [])

/-- Lines 11-90 of `src/app.py`: `process_trades` — empty output when there
are no closing rows, otherwise the records emitted by the full run. -/
def process_trades (rows : List RawExec) : List ClosedLot :=
  if closesOf rows = [] then [] else (runAll rows).2

/-- Sum of the raw matched quantities that the emitted records attribute to
the open lot with index `j` (the bookkeeping counterpart of the in-place
`残り数量` decrements at line 69). -/
def attrSum (outs : List ClosedLot) (j : Nat) : ℚ :=
  ((outs.filter fun cl => decide (cl.srcIdx = some j)).map fun cl => cl.matchedQty).sum

/-- Total remaining quantity over the open lots eligible for `c`. -/
def eligRemSum (c : RawExec) (lots : List OpenLot) : ℚ :=
  (((lots.filter fun l => decide (eligible c l))).map fun l => l.remaining).sum

/-- Attribution sum of an empty record list is zero. -/
theorem attrSum_nil (j : Nat) : attrSum [] j = 0 := rfl

/-- Attribution sum over a cons: the head contributes its matched quantity
exactly when it is attributed to lot `j`. -/
theorem attrSum_cons (cl : ClosedLot) (outs : List ClosedLot) (j : Nat) :
    attrSum (cl :: outs) j
      = (if cl.srcIdx = some j then cl.matchedQty else 0) + attrSum outs j := by
  by_cases h : cl.srcIdx = some j <;> simp [attrSum, List.filter_cons, h]

/-- Attribution sums add over list concatenation. -/
theorem attrSum_append (o1 o2 : List ClosedLot) (j : Nat) :
    attrSum (o1 ++ o2) j = attrSum o1 j + attrSum o2 j := by
  simp [attrSum, List.filter_append]

/-- If no record is attributed to lot `j`, the attribution sum is zero. -/
theorem attrSum_eq_zero {outs : List ClosedLot} {j : Nat}
    (h : ∀ cl ∈ outs, ¬ cl.srcIdx = some j) : attrSum outs j = 0 := by
  unfold attrSum
  rw [List.filter_eq_nil_iff.mpr]
  · rfl
  · intro cl hcl
    simpa using h cl hcl

/-- The matching loop does not change the sequence of lot indices. -/
theorem runMatches_lots_map_idx (c : RawExec) : ∀ (q : ℚ) (ls : List OpenLot),
    ((runMatches c q ls).lots).map (fun l => l.idx) = ls.map (fun l => l.idx) := by
  intro q ls
  induction ls generalizing q with
  | nil => simp [runMatches]
  | cons l ls ih =>
    by_cases h : eligible c l ∧ 0 < q
    · simp [runMatches, h, ih]
    · simp [runMatches, h, ih]

/-- With no quantity left to place (`closed_qty ≤ 0`, Python's `break`
guard), the matching loop is the identity: no lot is touched, nothing is
emitted, and `is_matched` stays false. -/
theorem runMatches_nonpos (c : RawExec) {q : ℚ} (ls : List OpenLot) (hq : q ≤ 0) :
    runMatches c q ls = ⟨ls, [], q, false⟩ := by
  induction ls with
  | nil => simp [runMatches]
  | cons l ls ih =>
    have h : ¬(eligible c l ∧ 0 < q) := by
      rintro ⟨-, h⟩
      exact absurd hq (not_le.mpr h)
    simp [runMatches, h, ih]

/-- Every record emitted by the matching loop is a matched slice of some
open lot of the input list. -/
theorem runMatches_out_shape (c : RawExec) : ∀ (q : ℚ) (ls : List OpenLot),
    ∀ cl ∈ (runMatches c q ls).outs, ∃ l m, l ∈ ls ∧ cl = mkMatched c l m := by
  intro q ls
  induction ls generalizing q with
  | nil => simp [runMatches]
  | cons l ls ih =>
    intro cl hcl
    by_cases h : eligible c l ∧ 0 < q
    · simp only [runMatches, if_pos h] at hcl
      rcases List.mem_cons.mp hcl with h1 | h1
      · exact ⟨l, min q l.remaining, List.mem_cons_self l ls, h1⟩
      · obtain ⟨l2, m, hl2, hcl2⟩ := ih _ cl h1
        exact ⟨l2, m, List.mem_cons_of_mem l hl2, hcl2⟩
    · simp only [runMatches, if_neg h] at hcl
      obtain ⟨l2, m, hl2, hcl2⟩ := ih _ cl hcl
      exact ⟨l2, m, List.mem_cons_of_mem l hl2, hcl2⟩

/-- The final `closed_qty` plus the total matched quantity equals the
initial `closed_qty`: the loop only moves quantity, it never loses it. -/
theorem runMatches_leftover_add_sum (c : RawExec) : ∀ (q : ℚ) (ls : List OpenLot),
    (runMatches c q ls).leftover
      + (((runMatches c q ls).outs).map fun cl => cl.matchedQty).sum = q := by
  intro q ls
  induction ls generalizing q with
  | nil => simp [runMatches]
  | cons l ls ih =>
    by_cases h : eligible c l ∧ 0 < q
    · have := ih (q - min q l.remaining)
      simp only [runMatches, if_pos h, List.map_cons, List.sum_cons, mkMatched] at *
      linarith
    · simpa [runMatches, h] using ih q

/-- `is_matched` can only become true when the loop started with a
positive quantity to place. -/
theorem runMatches_isMatched_pos (c : RawExec) : ∀ (q : ℚ) (ls : List OpenLot),
    (runMatches c q ls).isMatched = true → 0 < q := by
  intro q ls
  induction ls generalizing q with
  | nil => simp [runMatches]
  | cons l ls ih =>
    by_cases h : eligible c l ∧ 0 < q
    · intro _; exact h.2
    · simp only [runMatches, if_neg h]
      exact ih q

/-- Every record emitted by the matching loop carries the close's prorated
profit `c.profit / c.qty * matched_qty`, so the emitted profits sum to the
proration factor times the total matched quantity. -/
theorem runMatches_profit_sum (c : RawExec) (hc : c.qty ≠ 0) :
    ∀ (q : ℚ) (ls : List OpenLot),
    (((runMatches c q ls).outs).map fun cl => cl.profit).sum
      = c.profit / c.qty * (((runMatches c q ls).outs).map fun cl => cl.matchedQty).sum := by
  intro q ls
  induction ls generalizing q with
  | nil => simp [runMatches]
  | cons l ls ih =>
    by_cases h : eligible c l ∧ 0 < q
    · have := ih (q - min q l.remaining)
      simp only [runMatches, if_pos h, List.map_cons, List.sum_cons, mkMatched, if_pos hc] at *
      rw [this]
      ring
    · simpa [runMatches, h] using ih q

/-- Lots that are not eligible are passed over unchanged: the loop on
`A ++ B`, when nothing in `A` is eligible, acts only on `B`. -/
theorem runMatches_skip_all (c : RawExec) : ∀ (A B : List OpenLot) (q : ℚ),
    (∀ l ∈ A, ¬ eligible c l) →
    runMatches c q (A ++ B) = ⟨A ++ (runMatches c q B).lots, (runMatches c q B).outs,
      (runMatches c q B).leftover, (runMatches c q B).isMatched⟩ := by
  intro A
  induction A with
  | nil => intro B q _; rfl
  | cons a A ih =>
    intro B q h
    have ha : ¬(eligible c a ∧ 0 < q) := fun hx => h a (List.mem_cons_self a A) hx.1
    have hA : ∀ l ∈ A, ¬ eligible c l := fun l hl => h l (List.mem_cons_of_mem a hl)
    simp [runMatches, ha, ih B q hA]

/-- When no lot of the list is eligible, the loop is the identity and
`is_matched` stays false. -/
theorem runMatches_no_eligible (c : RawExec) (ls : List OpenLot) (q : ℚ)
    (h : ∀ l ∈ ls, ¬ eligible c l) : runMatches c q ls = ⟨ls, [], q, false⟩ := by
  have := runMatches_skip_all c ls [] q h
  simpa [runMatches] using this

/-- No emitted record is attributed to an index that does not belong to
the input lot list. -/
theorem runMatches_attrSum_zero (c : RawExec) (q : ℚ) (ls : List OpenLot) (j : Nat)
    (hj : j ∉ ls.map fun l => l.idx) : attrSum (runMatches c q ls).outs j = 0 := by
  refine attrSum_eq_zero ?_
  intro cl hcl heq
  obtain ⟨l, m, hl, rfl⟩ := runMatches_out_shape c q ls cl hcl
  have : l.idx = j := by simpa [mkMatched] using heq
  exact hj (this ▸ List.mem_map_of_mem (fun l => l.idx) hl)

/-- Per-lot ledger of one matching loop: every output lot corresponds to an
input lot with the same index and original quantity, a remaining quantity
that stays nonnegative, and a decrement equal to the total matched quantity
the emitted records attribute to it. -/
theorem runMatches_ledger (c : RawExec) : ∀ (q : ℚ) (ls : List OpenLot),
    (ls.map fun l => l.idx).Nodup →
    ∀ l' ∈ (runMatches c q ls).lots, ∃ l ∈ ls,
      l'.idx = l.idx ∧ l'.origQty = l.origQty ∧ (0 ≤ l.remaining → 0 ≤ l'.remaining) ∧
      l'.remaining + attrSum (runMatches c q ls).outs l.idx = l.remaining := by
  intro q ls
  induction ls generalizing q with
  | nil => simp [runMatches]
  | cons l ls ih =>
    intro hnd l' hl'
    rw [List.map_cons, List.nodup_cons] at hnd
    obtain ⟨hhead, htail⟩ := hnd
    by_cases h : eligible c l ∧ 0 < q
    · simp only [runMatches, if_pos h] at hl' ⊢
      rcases List.mem_cons.mp hl' with rfl | hmem
      · refine ⟨l, List.mem_cons_self l ls, rfl, rfl, fun _ => ?_, ?_⟩
        · exact sub_nonneg.mpr (min_le_right q l.remaining)
        · rw [attrSum_cons, runMatches_attrSum_zero c _ ls l.idx hhead]
          have hcontrib : (if (mkMatched c l (min q l.remaining)).srcIdx = some l.idx
              then (mkMatched c l (min q l.remaining)).matchedQty else 0)
              = min q l.remaining := by
            simp [mkMatched]
          rw [hcontrib]
          ring
      · obtain ⟨l2, hl2, hidx, horig, hnn, hsum⟩ := ih (q - min q l.remaining) htail l' hmem
        refine ⟨l2, List.mem_cons_of_mem l hl2, hidx, horig, hnn, ?_⟩
        rw [attrSum_cons]
        have hne : ¬((mkMatched c l (min q l.remaining)).srcIdx = some l2.idx) := by
          simp only [mkMatched, Option.some.injEq]
          intro hcontra
          exact hhead (hcontra ▸ List.mem_map_of_mem (fun x => x.idx) hl2)
        rw [if_neg hne, zero_add]
        exact hsum
    · simp only [runMatches, if_neg h] at hl' ⊢
      rcases List.mem_cons.mp hl' with rfl | hmem
      · refine ⟨l', List.mem_cons_self l' ls, rfl, rfl, fun hh => hh, ?_⟩
        rw [runMatches_attrSum_zero c q ls l'.idx hhead, add_zero]
      · obtain ⟨l2, hl2, hidx, horig, hnn, hsum⟩ := ih q htail l' hmem
        exact ⟨l2, List.mem_cons_of_mem l hl2, hidx, horig, hnn, hsum⟩

/-- Eligible lots have positive remaining quantity, so the eligible
remaining total is nonnegative. -/
theorem eligRemSum_nonneg (c : RawExec) (ls : List OpenLot) : 0 ≤ eligRemSum c ls := by
  refine List.sum_nonneg ?_
  intro x hx
  obtain ⟨l, hl, rfl⟩ := List.mem_map.mp hx
  have := (List.mem_filter.mp hl).2
  have helig : eligible c l := by simpa using this
  exact le_of_lt helig.2.2.1

/-- Unfolding `eligRemSum` over a cons cell. -/
theorem eligRemSum_cons (c : RawExec) (l : OpenLot) (ls : List OpenLot) :
    eligRemSum c (l :: ls)
      = (if eligible c l then l.remaining else 0) + eligRemSum c ls := by
  by_cases h : eligible c l <;> simp [eligRemSum, List.filter_cons, h]

/-- When the quantity to place strictly exceeds the total remaining
quantity of the eligible lots, the loop consumes every eligible lot
entirely: the matched quantities sum to the whole eligible remaining
total, and if any eligible lot exists `is_matched` becomes true. -/
theorem runMatches_exhaust (c : RawExec) : ∀ (q : ℚ) (ls : List OpenLot),
    eligRemSum c ls < q →
    ((((runMatches c q ls).outs).map fun cl => cl.matchedQty).sum = eligRemSum c ls ∧
      ((∃ l ∈ ls, eligible c l) → (runMatches c q ls).isMatched = true)) := by
  intro q ls
  induction ls generalizing q with
  | nil => intro _; simp [runMatches, eligRemSum]
  | cons l ls ih =>
    intro hq
    rw [eligRemSum_cons] at hq
    have htail0 : 0 ≤ eligRemSum c ls := eligRemSum_nonneg c ls
    by_cases he : eligible c l
    · rw [if_pos he] at hq
      have hrem : 0 < l.remaining := he.2.2.1
      have hqpos : 0 < q := by linarith
      have hmin : min q l.remaining = l.remaining := min_eq_right (by linarith)
      have ihq := ih (q - min q l.remaining) (by rw [hmin]; linarith)
      simp only [runMatches, if_pos (And.intro he hqpos), List.map_cons, List.sum_cons,
        mkMatched, eligRemSum_cons, if_pos he]
      exact ⟨by rw [ihq.1, hmin], fun _ => by trivial⟩
    · rw [if_neg he, zero_add] at hq
      have ihq := ih q hq
      simp only [runMatches, if_neg (fun hx => he hx.1 : ¬(eligible c l ∧ 0 < q)),
        eligRemSum_cons, if_neg he, zero_add]
      refine ⟨ihq.1, ?_⟩
      rintro ⟨l2, hl2, hel2⟩
      rcases List.mem_cons.mp hl2 with rfl | hmem
      · exact absurd hel2 he
      · exact ihq.2 ⟨l2, hmem, hel2⟩

/-- No record emitted inside the matching loop is a fallback record: each
carries a holding time and a source index. -/
theorem runMatches_outs_matched (c : RawExec) (q : ℚ) (ls : List OpenLot) :
    ∀ cl ∈ (runMatches c q ls).outs, cl.holding ≠ none ∧ cl.srcIdx ≠ none := by
  intro cl hcl
  obtain ⟨l, m, _, rfl⟩ := runMatches_out_shape c q ls cl hcl
  simp [mkMatched]

/-- When no lot at all is eligible for the close (lines 72-88 of
`src/app.py`), the lots are untouched and exactly the single fallback
record is emitted. -/
theorem processClose_no_eligible (lots : List OpenLot) (c : RawExec)
    (h : ∀ l ∈ lots, ¬ eligible c l) :
    processClose lots c = (lots, [mkFallback c]) := by
  unfold processClose
  rw [runMatches_no_eligible c lots c.qty h]
  rfl

/-- A closing execution with zero (or negative) quantity trips the
`closed_qty <= 0` break before any candidate is consumed, so the fallback
fires even when eligible lots exist. -/
theorem processClose_nonpos_qty (lots : List OpenLot) (c : RawExec) (h : c.qty ≤ 0) :
    processClose lots c = (lots, [mkFallback c]) := by
  unfold processClose
  rw [runMatches_nonpos c lots h]
  rfl

/-- Every record emitted for one closing execution is either a matched
slice of one of the current open lots or the single fallback record. -/
theorem processClose_out_shape (lots : List OpenLot) (c : RawExec) :
    ∀ cl ∈ (processClose lots c).2,
      (∃ l m, l ∈ lots ∧ cl = mkMatched c l m) ∨ cl = mkFallback c := by
  intro cl hcl
  simp only [processClose] at hcl
  by_cases h : (runMatches c c.qty lots).isMatched = true
  · rw [if_pos h] at hcl
    exact Or.inl (runMatches_out_shape c c.qty lots cl hcl)
  · rw [if_neg h] at hcl
    rcases List.mem_append.mp hcl with h1 | h1
    · exact Or.inl (runMatches_out_shape c c.qty lots cl h1)
    · exact Or.inr (by simpa using h1)

/-- The updated open-lot list of one closing execution is the one the
matching loop produced (the fallback branch does not touch the lots). -/
theorem processClose_lots_eq (lots : List OpenLot) (c : RawExec) :
    (processClose lots c).1 = (runMatches c c.qty lots).lots := by
  simp only [processClose]
  by_cases h : (runMatches c c.qty lots).isMatched = true
  · rw [if_pos h]
  · rw [if_neg h]

/-- The fallback record carries no source index, so the attribution sums
of one closing execution's records are those of its matched slices. -/
theorem processClose_attrSum (lots : List OpenLot) (c : RawExec) (j : Nat) :
    attrSum (processClose lots c).2 j = attrSum (runMatches c c.qty lots).outs j := by
  simp only [processClose]
  by_cases h : (runMatches c c.qty lots).isMatched = true
  · rw [if_pos h]
  · rw [if_neg h]
    show attrSum (_ ++ [mkFallback c]) j = _
    rw [attrSum_append, attrSum_cons, attrSum_nil]
    have : ¬((mkFallback c).srcIdx = some j) := by simp [mkFallback]
    rw [if_neg this]
    ring

/-- The matcher-state invariant: lot indices are pairwise distinct, every
remaining quantity is nonnegative, and each lot's remaining quantity plus
the matched quantity attributed to it equals its original quantity. -/
def Inv (s : List OpenLot × List ClosedLot) : Prop :=
  ((s.1.map fun l => l.idx).Nodup) ∧
    ∀ lot ∈ s.1, 0 ≤ lot.remaining ∧ lot.remaining + attrSum s.2 lot.idx = lot.origQty

/-- Processing one closing execution preserves the matcher-state
invariant. -/
theorem stepClose_inv {s : List OpenLot × List ClosedLot} (hs : Inv s) (c : RawExec) :
    Inv (stepClose s c) := by
  obtain ⟨hnd, hlots⟩ := hs
  constructor
  · show (((processClose s.1 c).1).map fun l => l.idx).Nodup
    rw [processClose_lots_eq, runMatches_lots_map_idx]
    exact hnd
  · intro lot hlot
    have hlot' : lot ∈ (runMatches c c.qty s.1).lots := by
      rw [show (stepClose s c).1 = (processClose s.1 c).1 from rfl,
        processClose_lots_eq] at hlot
      exact hlot
    obtain ⟨l, hl, hidx, horig, hnn, hsum⟩ := runMatches_ledger c c.qty s.1 hnd lot hlot'
    obtain ⟨h0, heq⟩ := hlots l hl
    constructor
    · exact hnn h0
    · show lot.remaining + attrSum (s.2 ++ (processClose s.1 c).2) lot.idx = lot.origQty
      rw [attrSum_append, hidx, processClose_attrSum, horig]
      linarith [hsum, heq]

/-- The matcher-state invariant is preserved along any sequence of closing
executions. -/
theorem foldl_stepClose_inv : ∀ (cs : List RawExec) (s : List OpenLot × List ClosedLot),
    Inv s → Inv (cs.foldl stepClose s) := by
  intro cs
  induction cs with
  | nil => intro s hs; exact hs
  | cons c cs ih => intro s hs; exact ih _ (stepClose_inv hs c)

/-- Membership is invariant under the stable insertion step. -/
theorem mem_insertByTime {x r : RawExec} : ∀ {xs : List RawExec},
    x ∈ insertByTime r xs ↔ x = r ∨ x ∈ xs := by
  intro xs
  induction xs with
  | nil => simp [insertByTime]
  | cons y ys ih =>
    by_cases h : r.time ≤ y.time
    · simp [insertByTime, h]
    · simp only [insertByTime, if_neg h, List.mem_cons, ih]
      tauto

/-- Sorting by timestamp does not change the set of rows. -/
theorem mem_sortByTime {x : RawExec} : ∀ {xs : List RawExec},
    x ∈ sortByTime xs ↔ x ∈ xs := by
  intro xs
  induction xs with
  | nil => simp [sortByTime]
  | cons y ys ih => simp [sortByTime, mem_insertByTime, ih]

/-- The initial open-lot table carries pairwise distinct indices (it is
reindexed `0, 1, ...` by `reset_index(drop=True)`). -/
theorem initLots_nodup (rows : List RawExec) :
    ((initLots rows).map fun l => l.idx).Nodup := by
  unfold initLots
  rw [List.map_map]
  have : ((fun l : OpenLot => l.idx) ∘ fun p : Nat × RawExec =>
      (⟨p.1, p.2.instrument, p.2.time, p.2.price, p.2.qty, p.2.qty⟩ : OpenLot))
      = Prod.fst := rfl
  rw [this, List.enum_map_fst]
  exact List.nodup_range _

/-- Every initial open lot comes from an opening row of the export, with
`remaining = origQty = 約定数量`. -/
theorem initLots_from_rows (rows : List RawExec) :
    ∀ l ∈ initLots rows, ∃ r ∈ rows, l.origQty = r.qty ∧ l.remaining = r.qty := by
  intro l hl
  unfold initLots at hl
  obtain ⟨p, hp, rfl⟩ := List.mem_map.mp hl
  have h2 : p.2 ∈ sortByTime (newsOf rows) := by
    have := List.mem_enum_iff_getElem?.mp hp
    exact List.getElem?_mem this
  have h3 : p.2 ∈ rows := List.mem_of_mem_filter (mem_sortByTime.mp h2)
  exact ⟨p.2, h3, rfl, rfl⟩

/-- Every record accumulated by the outer loop either was already present
or was emitted while processing one of the closing executions. -/
theorem foldl_out_shape : ∀ (cs : List RawExec) (s : List OpenLot × List ClosedLot)
    (cl : ClosedLot), cl ∈ (cs.foldl stepClose s).2 →
    cl ∈ s.2 ∨ ∃ c ∈ cs, ∃ lots, cl ∈ (processClose lots c).2 := by
  intro cs
  induction cs with
  | nil => intro s cl h; exact Or.inl h
  | cons c cs ih =>
    intro s cl h
    rcases ih _ cl h with h1 | h1
    · rcases List.mem_append.mp (show cl ∈ s.2 ++ (processClose s.1 c).2 from h1) with h2 | h2
      · exact Or.inl h2
      · exact Or.inr ⟨c, List.mem_cons_self c cs, s.1, h2⟩
    · obtain ⟨c2, hc2, lots, h2⟩ := h1
      exact Or.inr ⟨c2, List.mem_cons_of_mem c hc2, lots, h2⟩

/-- Every record of a `process_trades` run was emitted while processing
one closing execution against some open-lot state. -/
theorem process_trades_out_shape (rows : List RawExec) :
    ∀ cl ∈ process_trades rows, ∃ c lots, cl ∈ (processClose lots c).2 := by
  intro cl hcl
  unfold process_trades at hcl
  by_cases h : closesOf rows = []
  · rw [if_pos h] at hcl
    exact absurd hcl (List.not_mem_nil cl)
  · rw [if_neg h] at hcl
    rcases foldl_out_shape _ _ cl hcl with h1 | h1
    · exact absurd h1 (List.not_mem_nil cl)
    · obtain ⟨c, _, lots, h2⟩ := h1
      exact ⟨c, lots, h2⟩

/-- The adjusted day realizes the trading-day boundary rule: timestamps
before 07:00 belong to the previous calendar day. -/
theorem adjDay_eq (t : Int) :
    adjDay t = if hourOf t < 7 then dayOf t - 1 else dayOf t := by
  unfold adjDay get_adjusted_date
  by_cases h : hourOf t < 7
  · rw [if_pos h, if_pos h]
    unfold dayOf
    have heq : t - 1440 = t + (-1) * 1440 := by ring
    rw [heq, Int.add_mul_ediv_right t (-1) (by norm_num)]
    ring
  · rw [if_neg h, if_neg h]

/-- Line 97 of `src/app.py`: per-lot profit `実現損益 / ロット数`, with
`inf`, `-inf` and `NaN` (all arising exactly when `ロット数 = 0` here since
the column has no missing values) replaced by 0. -/
def perLot (cl : ClosedLot) : ℚ := if cl.lotQty = 0 then 0 else cl.profit / cl.lotQty

/-- Winning records of a group: `実現損益（円貨） > 0`. -/
def winsOf (g : List ClosedLot) : List ClosedLot :=
  g.filter fun cl => decide (0 < cl.profit)

/-- Losing records of a group: `実現損益（円貨） < 0`. -/
def lossesOf (g : List ClosedLot) : List ClosedLot :=
  g.filter fun cl => decide (cl.profit < 0)

/-- Pandas `.mean()` over a possibly empty list: `NaN`/`NaT` (empty input)
is modelled as `none`. -/
def meanOpt (xs : List ℚ) : Option ℚ :=
  if xs = [] then none else some (xs.sum / (xs.length : ℚ))

/-- One row of the aggregator output (lines 99-116 of `src/app.py`).
`pf` and `rr` model float columns whose value is `+inf` exactly when the
stored option is `none`; `winHold`/`lossHold`/`perLotWin`/`perLotLoss`
model columns that are `NaT`/`NaN` when the stored option is `none`. -/
structure SummaryRow where
  totalProfit : ℚ
  count : Nat
  wins : Nat
  losses : Nat
  winHold : Option ℚ
  lossHold : Option ℚ
  perLotWin : Option ℚ
  perLotLoss : Option ℚ
  winRate : ℚ
  totalWin : ℚ
  totalLoss : ℚ
  pf : Option ℚ
  avgWin : ℚ
  avgLoss : ℚ
  rr : Option ℚ
deriving DecidableEq

/-- Lines 99-116 of `src/app.py`, for one group `g`:

* 総損益/取引回数/勝ち数/負け数 — sum, count, win count, loss count;
* 勝ち平均時間/負け平均時間 — mean holding time over the winners/losers
  (`NaT` entries are skipped by pandas `.mean()`, and the result is `NaT`
  when nothing remains);
* 1ロット利益/1ロット損失 — mean per-lot profit over winners/losers
  (`NaN` when the subset is empty);
* 勝率 = 勝ち数/取引回数×100, with `NaN` (count 0) filled with 0;
* 総利益/総損失 — recomputed grouped sums over winners/losers, missing
  groups filled with 0;
* PF = 総利益/|総損失|: when 総損失 = 0 this is float `inf` (either by
  positive/zero division or as `NaN` filled with `inf`), modelled `none`;
* 平均利益 = 総利益/勝ち数 with `NaN` filled with 0 — `勝ち数 = 0` forces
  `総利益 = 0`, so this is 0 exactly when there are no winners;
* 平均損失 — symmetric;
* RR = 平均利益/|平均損失|: `inf` (modelled `none`) exactly when
  平均損失 = 0. -/
def summarize (g : List ClosedLot) : SummaryRow :=
  let w := winsOf g
  let l := lossesOf g
  let totalWin := (w.map fun cl => cl.profit).sum
  let totalLoss := (l.map fun cl => cl.profit).sum
  let avgWin := if w.length = 0 then 0 else totalWin / (w.length : ℚ)
  let avgLoss := if l.length = 0 then 0 else totalLoss / (l.length : ℚ)
  { totalProfit := (g.map fun cl => cl.profit).sum
    count := g.length
    wins := w.length
    losses := l.length
    winHold := meanOpt (w.filterMap fun cl => cl.holding.map fun h => (h : ℚ))
    lossHold := meanOpt (l.filterMap fun cl => cl.holding.map fun h => (h : ℚ))
    perLotWin := meanOpt (w.map perLot)
    perLotLoss := meanOpt (l.map perLot)
    winRate := if g.length = 0 then 0 else (w.length : ℚ) / (g.length : ℚ) * 100
    totalWin := totalWin
    totalLoss := totalLoss
    pf := if totalLoss = 0 then none else some (totalWin / |totalLoss|)
    avgWin := avgWin
    avgLoss := avgLoss
    rr := if avgLoss = 0 then none else some (avgWin / |avgLoss|) }

/-- Lines 92-118 of `src/app.py`: `analyze_summary` — empty output on empty
input, otherwise one `SummaryRow` per distinct group key (the rows with
that key form the group). -/
def analyze_summary {κ : Type} [DecidableEq κ] (lots : List ClosedLot)
    (key : ClosedLot → κ) : List SummaryRow :=
  if lots = [] then []
  else ((lots.map key).dedup).map fun k =>
    summarize (lots.filter fun cl => decide (key cl = k))

/-- Claim C1: for every closing execution whose quantity is fully absorbed
by one or more matched open lots (the matching loop ends with
`closed_qty = 0` and `is_matched` true), the prorated profits of the
emitted ClosedLots sum exactly (in rational arithmetic) to the closing
execution's reported realized profit. -/
theorem C1_profit_conservation (c : RawExec) (lots : List OpenLot)
    (h0 : (runMatches c c.qty lots).leftover = 0)
    (h1 : (runMatches c c.qty lots).isMatched = true) :
    (((runMatches c c.qty lots).outs).map fun cl => cl.profit).sum = c.profit := by
  have hpos : 0 < c.qty := runMatches_isMatched_pos c c.qty lots h1
  have hne : c.qty ≠ 0 := ne_of_gt hpos
  have hsum := runMatches_leftover_add_sum c c.qty lots
  rw [h0, zero_add] at hsum
  rw [runMatches_profit_sum c hne c.qty lots, hsum]
  field_simp

/-- Closing execution for the C1 witness: quantity 2, realized profit 10,
opened at price 100. -/
def c1c : RawExec := ⟨"USDJPY", "決済", "売", 600, 2, 101, 100, 10⟩

/-- Open lot for the C1 witness: index 0, 5 units remaining at price 100. -/
def c1l : OpenLot := ⟨0, "USDJPY", 0, 100, 5, 5⟩

/-- Witness for C1 at a concrete fully-absorbed closing execution. -/
theorem C1_profit_conservation_witness :
    (runMatches c1c c1c.qty [c1l]).leftover = 0 ∧
    (runMatches c1c c1c.qty [c1l]).isMatched = true ∧
    (((runMatches c1c c1c.qty [c1l]).outs).map fun cl => cl.profit).sum = c1c.profit := by
  have h0 : (runMatches c1c c1c.qty [c1l]).leftover = 0 := by
    norm_num [runMatches, c1c, c1l, eligible, min_def]
  have h1 : (runMatches c1c c1c.qty [c1l]).isMatched = true := by
    norm_num [runMatches, c1c, c1l, eligible, min_def]
  exact ⟨h0, h1, C1_profit_conservation c1c [c1l] h0 h1⟩

/-- Opening rows for the C2 counterexample: three eligible opens at times
0, 10, 20, all at price 100 with quantity 5. -/
def c2o0 : RawExec := ⟨"USDJPY", "新規", "買", 0, 5, 100, 0, 0⟩

/-- Second opening row (time 10) for the C2 counterexample. -/
def c2o1 : RawExec := ⟨"USDJPY", "新規", "買", 10, 5, 100, 0, 0⟩

/-- Third opening row (time 20) for the C2 counterexample. -/
def c2o2 : RawExec := ⟨"USDJPY", "新規", "買", 20, 5, 100, 0, 0⟩

/-- Closing row for the C2 counterexample: quantity 3 at opening price
100, later than all three opens. -/
def c2c : RawExec := ⟨"USDJPY", "決済", "売", 600, 3, 101, 100, 6⟩

/-- The C2 counterexample export: three eligible opens and one close. -/
def c2rows : List RawExec := [c2o0, c2o1, c2o2, c2c]

/-- The t1 lot of the C2 counterexample pair (the time-10 open, index 1). -/
def c2lot1 : OpenLot := ⟨1, "USDJPY", 10, 100, 5, 5⟩

/-- The t2 lot of the C2 counterexample pair (the time-20 open, index 2). -/
def c2lot2 : OpenLot := ⟨2, "USDJPY", 20, 100, 5, 5⟩

/-- Counterexample to claim C2 as stated: `c2lot1` and `c2lot2` are a pair
of open lots eligible for the close `c2c` with `t1 < t2` and closing
quantity `3 ≤ 5 =` t1-remaining, yet the matcher attributes none of the
closing quantity to the t1 lot (an even older eligible open, at time 0,
absorbs the whole close), contradicting "consumes the entire closing
quantity from the t1 lot". -/
theorem C2_fifo_counterexample :
    c2lot1 ∈ initLots c2rows ∧ c2lot2 ∈ initLots c2rows ∧
    eligible c2c c2lot1 ∧ eligible c2c c2lot2 ∧
    c2lot1.time < c2lot2.time ∧ c2c.qty ≤ c2lot1.remaining ∧ c2c.qty ≠ 0 ∧
    attrSum (process_trades c2rows) c2lot1.idx = 0 := by
  have hnew : isNew c2o0 = true ∧ isNew c2o1 = true ∧ isNew c2o2 = true ∧
      isNew c2c = false := by decide
  have hcls : isClose c2o0 = false ∧ isClose c2o1 = false ∧ isClose c2o2 = false ∧
      isClose c2c = true := by decide
  obtain ⟨hn0, hn1, hn2, hn3⟩ := hnew
  obtain ⟨hc0, hc1, hc2, hc3⟩ := hcls
  simp only [c2o0, c2o1, c2o2, c2c] at hn0 hn1 hn2 hn3 hc0 hc1 hc2 hc3
  refine ⟨?_, ?_, by decide, by decide, by decide, by decide, by decide, ?_⟩
  · norm_num [initLots, c2rows, newsOf, sortByTime, insertByTime, List.filter,
      c2o0, c2o1, c2o2, c2c, c2lot1, List.enum, List.enumFrom, hn0, hn1, hn2, hn3]
  · norm_num [initLots, c2rows, newsOf, sortByTime, insertByTime, List.filter,
      c2o0, c2o1, c2o2, c2c, c2lot2, List.enum, List.enumFrom, hn0, hn1, hn2, hn3]
  · norm_num [process_trades, runAll, closesOf, newsOf, initLots, sortByTime,
      insertByTime, stepClose, processClose, runMatches, c2rows, c2o0, c2o1, c2o2, c2c,
      c2lot1, eligible, min_def, List.enum, List.enumFrom, List.filter,
      hn0, hn1, hn2, hn3, hc0, hc1, hc2, hc3, attrSum, mkMatched]

/-- Claim C2, amended: given a pair of eligible open lots `l1`, `l2` with
`l1.time < l2.time`, a closing quantity between 0 and `l1`'s remaining
quantity, and — as the counterexample forces — `l1` being the first
eligible lot in the matcher's oldest-first visiting order (only ineligible
lots precede it), the matcher consumes the entire closing quantity from
`l1` and leaves `l2` (and every other lot) unchanged. -/
theorem C2_fifo_oldest_first (c : RawExec) (A B : List OpenLot) (l1 l2 : OpenLot)
    (hA : ∀ l ∈ A, ¬ eligible c l) (h1 : eligible c l1) (h2 : l2 ∈ B)
    (he2 : eligible c l2) (ht : l1.time < l2.time)
    (hq0 : 0 ≤ c.qty) (hq : c.qty ≤ l1.remaining) :
    (processClose (A ++ l1 :: B) c).1
      = A ++ ({ l1 with remaining := l1.remaining - c.qty } :: B) := by
  rw [processClose_lots_eq, runMatches_skip_all c A (l1 :: B) c.qty hA]
  show A ++ (runMatches c c.qty (l1 :: B)).lots = _
  rcases eq_or_lt_of_le hq0 with heq | hlt
  · rw [runMatches_nonpos c (l1 :: B) (le_of_eq heq.symm)]
    show A ++ (l1 :: B) = _
    rw [← heq, sub_zero]
  · have hcond : eligible c l1 ∧ 0 < c.qty := ⟨h1, hlt⟩
    have hmin : min c.qty l1.remaining = c.qty := min_eq_left hq
    simp only [runMatches, if_pos hcond, hmin]
    rw [runMatches_nonpos c B (by linarith : c.qty - c.qty ≤ 0)]

/-- Witness for the amended C2 at a concrete scenario: one ineligible lot
(other instrument) ahead of the pair, closing quantity 3 out of 5. -/
theorem C2_fifo_oldest_first_witness :
    (∀ l ∈ [(⟨0, "EURUSD", 0, 100, 5, 5⟩ : OpenLot)], ¬ eligible c2c l) ∧
    eligible c2c c2lot1 ∧ c2lot2 ∈ [c2lot2] ∧ eligible c2c c2lot2 ∧
    c2lot1.time < c2lot2.time ∧ 0 ≤ c2c.qty ∧ c2c.qty ≤ c2lot1.remaining ∧
    (processClose ([⟨0, "EURUSD", 0, 100, 5, 5⟩] ++ c2lot1 :: [c2lot2]) c2c).1
      = [⟨0, "EURUSD", 0, 100, 5, 5⟩]
        ++ ({ c2lot1 with remaining := c2lot1.remaining - c2c.qty } :: [c2lot2]) := by
  refine ⟨by decide, by decide, by decide, by decide, by decide, by decide, by decide, ?_⟩
  exact C2_fifo_oldest_first c2c [⟨0, "EURUSD", 0, 100, 5, 5⟩] [c2lot2] c2lot1 c2lot2
    (by decide) (by decide) (by decide) (by decide) (by decide) (by decide) (by decide)

/-- Claim C4: a closing execution for which no open lot at all is eligible
yields exactly one ClosedLot carrying its full realized profit, its full
divisor-normalized quantity, and no holding time. -/
theorem C4_unmatched_fallback (lots : List OpenLot) (c : RawExec)
    (h : ∀ l ∈ lots, ¬ eligible c l) :
    (processClose lots c).2 = [mkFallback c] ∧
    (mkFallback c).profit = c.profit ∧
    (mkFallback c).lotQty = c.qty / (if is_fx c.instrument then 10000 else 1) ∧
    (mkFallback c).holding = none := by
  refine ⟨?_, rfl, ?_, rfl⟩
  · rw [processClose_no_eligible lots c h]
  · simp [mkFallback, lot_size]

/-- Witness for C4: a close on a different instrument than the only open
lot, so no candidate is eligible. -/
theorem C4_unmatched_fallback_witness :
    (∀ l ∈ [(⟨0, "EURUSD", 0, 100, 5, 5⟩ : OpenLot)], ¬ eligible c1c l) ∧
    (processClose [(⟨0, "EURUSD", 0, 100, 5, 5⟩ : OpenLot)] c1c).2 = [mkFallback c1c] ∧
    (mkFallback c1c).profit = c1c.profit ∧
    (mkFallback c1c).lotQty = c1c.qty / (if is_fx c1c.instrument then 10000 else 1) ∧
    (mkFallback c1c).holding = none := by
  have h : ∀ l ∈ [(⟨0, "EURUSD", 0, 100, 5, 5⟩ : OpenLot)], ¬ eligible c1c l := by decide
  exact ⟨h, C4_unmatched_fallback [(⟨0, "EURUSD", 0, 100, 5, 5⟩ : OpenLot)] c1c h⟩

/-- Claim C5: a closing execution that matches at least one eligible open
lot but whose quantity exceeds the total eligible remaining quantity
produces records covering exactly the matched (eligible-remaining) total,
all of them matched slices — no fallback record is emitted for the
leftover remainder, whose prorated profit is therefore dropped. -/
theorem C5_leftover_remainder_dropped (lots : List OpenLot) (c : RawExec)
    (hex : ∃ l ∈ lots, eligible c l)
    (hq : eligRemSum c lots < c.qty) :
    (((processClose lots c).2).map fun cl => cl.matchedQty).sum = eligRemSum c lots ∧
    ∀ cl ∈ (processClose lots c).2, cl.holding ≠ none := by
  have hrun := runMatches_exhaust c c.qty lots hq
  have hm : (runMatches c c.qty lots).isMatched = true := hrun.2 hex
  have hout : (processClose lots c).2 = (runMatches c c.qty lots).outs := by
    simp only [processClose]
    rw [if_pos hm]
  rw [hout]
  exact ⟨hrun.1, fun cl hcl => (runMatches_outs_matched c c.qty lots cl hcl).1⟩

/-- Closing execution for the C5 witness: quantity 8 against a single
eligible lot with only 5 remaining. -/
def c5c : RawExec := ⟨"USDJPY", "決済", "売", 600, 8, 101, 100, 16⟩

/-- Witness for C5 at a concrete partially-matchable closing execution. -/
theorem C5_leftover_remainder_dropped_witness :
    (∃ l ∈ [c1l], eligible c5c l) ∧ eligRemSum c5c [c1l] < c5c.qty ∧
    ((((processClose [c1l] c5c).2).map fun cl => cl.matchedQty).sum
        = eligRemSum c5c [c1l] ∧
      ∀ cl ∈ (processClose [c1l] c5c).2, cl.holding ≠ none) := by
  have hex : ∃ l ∈ [c1l], eligible c5c l := ⟨c1l, by decide, by decide⟩
  have hq : eligRemSum c5c [c1l] < c5c.qty := by
    norm_num [eligRemSum, c5c, c1l, eligible, List.filter]
  exact ⟨hex, hq, C5_leftover_remainder_dropped [c1l] c5c hex hq⟩

/-- Claim C3: at every point of a matcher run (after any number `k` of
closing executions), every open lot has a nonnegative remaining quantity,
and the total matched quantity attributed to it by the emitted records
never exceeds its original quantity — provided the export's quantities are
nonnegative. -/
theorem C3_no_overconsumption (rows : List RawExec) (k : Nat)
    (hq : ∀ r ∈ rows, 0 ≤ r.qty) :
    ∀ lot ∈ (runUpTo rows k).1,
      0 ≤ lot.remaining ∧ attrSum (runUpTo rows k).2 lot.idx ≤ lot.origQty := by
  have hinit : Inv (initLots rows, []) := by
    constructor
    · exact initLots_nodup rows
    · intro lot hlot
      obtain ⟨r, hr, horig, hrem⟩ := initLots_from_rows rows lot hlot
      refine ⟨by rw [hrem]; exact hq r hr, ?_⟩
      show lot.remaining + attrSum [] lot.idx = lot.origQty
      rw [attrSum_nil, add_zero, hrem, horig]
  have h := foldl_stepClose_inv ((sortByTime (closesOf rows)).take k) _ hinit
  intro lot hlot
  unfold runUpTo at hlot ⊢
  obtain ⟨h0, heqn⟩ := h.2 lot hlot
  exact ⟨h0, by linarith⟩

/-- Export for the C3 witness: one open of quantity 5 and one close of
quantity 2 against it. -/
def c3rows : List RawExec := [⟨"USDJPY", "新規", "買", 0, 5, 100, 0, 0⟩, c1c]

/-- Witness for C3 after the single closing execution of `c3rows`. -/
theorem C3_no_overconsumption_witness :
    (∀ r ∈ c3rows, 0 ≤ r.qty) ∧
    (⟨0, "USDJPY", 0, 100, 5, 3⟩ : OpenLot) ∈ (runUpTo c3rows 1).1 ∧
    (0 ≤ (⟨0, "USDJPY", 0, 100, 5, 3⟩ : OpenLot).remaining ∧
      attrSum (runUpTo c3rows 1).2 (⟨0, "USDJPY", 0, 100, 5, 3⟩ : OpenLot).idx
        ≤ (⟨0, "USDJPY", 0, 100, 5, 3⟩ : OpenLot).origQty) := by
  have hq : ∀ r ∈ c3rows, 0 ≤ r.qty := by decide
  have hnew : isNew (⟨"USDJPY", "新規", "買", 0, 5, 100, 0, 0⟩ : RawExec) = true ∧
      isNew c1c = false ∧ isClose (⟨"USDJPY", "新規", "買", 0, 5, 100, 0, 0⟩ : RawExec) = false ∧
      isClose c1c = true := by decide
  obtain ⟨hn0, hn1, hc0, hc1⟩ := hnew
  simp only [c1c] at hn0 hn1 hc0 hc1
  have hmem : (⟨0, "USDJPY", 0, 100, 5, 3⟩ : OpenLot) ∈ (runUpTo c3rows 1).1 := by
    norm_num [runUpTo, c3rows, closesOf, newsOf, initLots, sortByTime, insertByTime,
      stepClose, processClose, runMatches, c1c, eligible, min_def,
      List.enum, List.enumFrom, List.filter, hn0, hn1, hc0, hc1]
  exact ⟨hq, hmem, C3_no_overconsumption c3rows 1 hq _ hmem⟩

/-- Claim C7: every record emitted for a closing execution derives its
settlement day from the adjusted date of that closing execution's
timestamp (one day earlier when the hour is before 7), and its settlement
year-month from that same settlement day — never from the opening
execution's timestamp. -/
theorem C7_settlement_from_close (lots : List OpenLot) (c : RawExec)
    (cl : ClosedLot) (h : cl ∈ (processClose lots c).2) :
    cl.settleDay = (if hourOf c.time < 7 then dayOf c.time - 1 else dayOf c.time) ∧
    cl.settleYM = ymOf cl.settleDay := by
  rcases processClose_out_shape lots c cl h with ⟨l, m, _, rfl⟩ | rfl
  · exact ⟨by rw [show (mkMatched c l m).settleDay = adjDay c.time from rfl, adjDay_eq], rfl⟩
  · exact ⟨by rw [show (mkFallback c).settleDay = adjDay c.time from rfl, adjDay_eq], rfl⟩

/-- Closing execution for the C7 witness, at 01:00 on day 1 (minute 1500),
so the pre-07:00 rule pushes its settlement back to day 0. -/
def c7c : RawExec := ⟨"USDJPY", "決済", "売", 1500, 2, 101, 100, 10⟩

/-- Witness for C7: the matched record of `c7c` settles on day 0
(1970-01-01), not on the close's raw calendar day 1. -/
theorem C7_settlement_from_close_witness :
    mkMatched c7c c1l 2 ∈ (processClose [c1l] c7c).2 ∧
    (mkMatched c7c c1l 2).settleDay
        = (if hourOf c7c.time < 7 then dayOf c7c.time - 1 else dayOf c7c.time) ∧
    (mkMatched c7c c1l 2).settleYM = ymOf (mkMatched c7c c1l 2).settleDay := by
  have hmem : mkMatched c7c c1l 2 ∈ (processClose [c1l] c7c).2 := by
    norm_num [processClose, runMatches, c7c, c1l, eligible, min_def]
  exact ⟨hmem, C7_settlement_from_close [c1l] c7c _ hmem⟩

/-- Claim C9: a closing execution with zero quantity trips the
`closed_qty <= 0` break before any candidate is consumed, so — even when
eligible open lots exist — the lots are untouched and exactly one fallback
ClosedLot is emitted, carrying the close's full realized profit, lot
quantity 0 and no holding time. -/
theorem C9_zero_qty_close (lots : List OpenLot) (c : RawExec) (h : c.qty = 0) :
    (processClose lots c).2 = [mkFallback c] ∧ (processClose lots c).1 = lots ∧
    (mkFallback c).profit = c.profit ∧ (mkFallback c).lotQty = 0 ∧
    (mkFallback c).holding = none := by
  have hpc := processClose_nonpos_qty lots c (le_of_eq h)
  refine ⟨by rw [hpc], by rw [hpc], rfl, ?_, rfl⟩
  simp [mkFallback, h]

/-- Closing execution for the C9 witness: zero quantity, profit 7, with an
eligible open lot available. -/
def c9c : RawExec := ⟨"USDJPY", "決済", "売", 600, 0, 101, 100, 7⟩

/-- Witness for C9: `c1l` is eligible for `c9c`, yet the zero-quantity
close falls through to the fallback record. -/
theorem C9_zero_qty_close_witness :
    eligible c9c c1l ∧ c9c.qty = 0 ∧
    ((processClose [c1l] c9c).2 = [mkFallback c9c] ∧
      (processClose [c1l] c9c).1 = [c1l] ∧
      (mkFallback c9c).profit = c9c.profit ∧ (mkFallback c9c).lotQty = 0 ∧
      (mkFallback c9c).holding = none) := by
  exact ⟨by decide, by decide, C9_zero_qty_close [c1l] c9c (by decide)⟩

/-- FX export for the C6 instances: one open and one close of quantity
30000 on `USDJPY`. -/
def c6fxRows : List RawExec :=
  [⟨"USDJPY", "新規", "買", 0, 30000, 100, 0, 0⟩,
    ⟨"USDJPY", "決済", "売", 600, 30000, 101, 100, 5⟩]

/-- CFD export for the C6 instances: one open and one close of quantity
30000 on an instrument without a currency token. -/
def c6cfdRows : List RawExec :=
  [⟨"日経225", "新規", "買", 0, 30000, 100, 0, 0⟩,
    ⟨"日経225", "決済", "売", 600, 30000, 101, 100, 5⟩]

/-- Claim C6: every record of a matcher run has normalized lot quantity
equal to its raw matched quantity divided by 10000 when the closing
instrument is classified FX (name contains one of the currency tokens) and
by 1 when classified CFD; in particular the FX export `c6fxRows` (closing
quantity 30000) yields lot quantity 3 and the CFD export `c6cfdRows`
yields lot quantity 30000. -/
theorem C6_lot_normalization :
    (∀ (rows : List RawExec), ∀ cl ∈ process_trades rows,
      cl.lotQty = cl.matchedQty / (if is_fx cl.instrument then 10000 else 1)) ∧
    ((process_trades c6fxRows).map fun cl => cl.lotQty) = [3] ∧
    ((process_trades c6cfdRows).map fun cl => cl.lotQty) = [30000] := by
  refine ⟨?_, ?_, ?_⟩
  · intro rows cl hcl
    obtain ⟨c, lots, h⟩ := process_trades_out_shape rows cl hcl
    rcases processClose_out_shape lots c cl h with ⟨l, m, _, rfl⟩ | rfl
    · simp [mkMatched, lot_size]
    · simp [mkFallback, lot_size]
  · have hfx : is_fx "USDJPY" = true := by decide
    have hnew : isNew (⟨"USDJPY", "新規", "買", 0, 30000, 100, 0, 0⟩ : RawExec) = true ∧
        isNew (⟨"USDJPY", "決済", "売", 600, 30000, 101, 100, 5⟩ : RawExec) = false ∧
        isClose (⟨"USDJPY", "新規", "買", 0, 30000, 100, 0, 0⟩ : RawExec) = false ∧
        isClose (⟨"USDJPY", "決済", "売", 600, 30000, 101, 100, 5⟩ : RawExec) = true := by
      decide
    obtain ⟨hn0, hn1, hc0, hc1⟩ := hnew
    norm_num [process_trades, runAll, closesOf, newsOf, initLots, sortByTime,
      insertByTime, stepClose, processClose, runMatches, c6fxRows, eligible, min_def,
      List.enum, List.enumFrom, List.filter, hn0, hn1, hc0, hc1, mkMatched,
      lot_size, hfx]
  · have hcfd : is_fx "日経225" = false := by decide
    have hnew : isNew (⟨"日経225", "新規", "買", 0, 30000, 100, 0, 0⟩ : RawExec) = true ∧
        isNew (⟨"日経225", "決済", "売", 600, 30000, 101, 100, 5⟩ : RawExec) = false ∧
        isClose (⟨"日経225", "新規", "買", 0, 30000, 100, 0, 0⟩ : RawExec) = false ∧
        isClose (⟨"日経225", "決済", "売", 600, 30000, 101, 100, 5⟩ : RawExec) = true := by
      decide
    obtain ⟨hn0, hn1, hc0, hc1⟩ := hnew
    norm_num [process_trades, runAll, closesOf, newsOf, initLots, sortByTime,
      insertByTime, stepClose, processClose, runMatches, c6cfdRows, eligible, min_def,
      List.enum, List.enumFrom, List.filter, hn0, hn1, hc0, hc1, mkMatched,
      lot_size, hcfd]

/-- Witness for the universally quantified part of C6, at the concrete FX
export. -/
theorem C6_lot_normalization_witness :
    ∃ cl ∈ process_trades c6fxRows,
      cl.lotQty = cl.matchedQty / (if is_fx cl.instrument then 10000 else 1) := by
  have hlen : (process_trades c6fxRows).map (fun cl => cl.lotQty) = [3] :=
    C6_lot_normalization.2.1
  have : ∃ cl, cl ∈ process_trades c6fxRows := by
    cases hpt : process_trades c6fxRows with
    | nil => rw [hpt] at hlen; exact absurd hlen (by simp)
    | cons cl rest => exact ⟨cl, by simp [hpt]⟩
  obtain ⟨cl, hcl⟩ := this
  exact ⟨cl, hcl, C6_lot_normalization.1 c6fxRows cl hcl⟩

/-- Claim C8: in every aggregator group, zero losing trades force both the
profit factor and the reward-to-risk ratio to +infinity (modelled `none`);
an empty group has win rate 0; no winners force average win 0 and no
losers force average loss 0. -/
theorem C8_ratio_edge_cases (g : List ClosedLot) :
    ((summarize g).losses = 0 → (summarize g).pf = none ∧ (summarize g).rr = none) ∧
    ((summarize g).count = 0 → (summarize g).winRate = 0) ∧
    ((summarize g).wins = 0 → (summarize g).avgWin = 0) ∧
    ((summarize g).losses = 0 → (summarize g).avgLoss = 0) := by
  refine ⟨?_, ?_, ?_, ?_⟩
  · intro h
    have hl : lossesOf g = [] := List.length_eq_zero.mp (by simpa [summarize] using h)
    simp [summarize, hl]
  · intro h
    have hg : g = [] := List.length_eq_zero.mp (by simpa [summarize] using h)
    simp [summarize, hg]
  · intro h
    have hw : winsOf g = [] := List.length_eq_zero.mp (by simpa [summarize] using h)
    simp [summarize, hw]
  · intro h
    have hl : lossesOf g = [] := List.length_eq_zero.mp (by simpa [summarize] using h)
    simp [summarize, hl]

/-- A single all-winning group record for the C8 witness. -/
def c8lot : ClosedLot :=
  ⟨"USDJPY", "ロング", 10, some 600, 1, "FX", 0, (1970, 1), 10000, some 0⟩

/-- Witness for C8 on a concrete group with no losing trade: profit factor
and reward-to-risk are +infinity (`none`), and the empty group has win
rate 0. -/
theorem C8_ratio_edge_cases_witness :
    (summarize [c8lot]).losses = 0 ∧
    ((summarize [c8lot]).pf = none ∧ (summarize [c8lot]).rr = none) ∧
    (summarize ([] : List ClosedLot)).count = 0 ∧
    (summarize ([] : List ClosedLot)).winRate = 0 := by
  have hl : (summarize [c8lot]).losses = 0 := by
    norm_num [summarize, lossesOf, winsOf, List.filter, c8lot]
  have hc : (summarize ([] : List ClosedLot)).count = 0 := by
    norm_num [summarize]
  exact ⟨hl, (C8_ratio_edge_cases [c8lot]).1 hl, hc,
    (C8_ratio_edge_cases ([] : List ClosedLot)).2.1 hc⟩

/-- In any group, winners and losers are disjoint subsets, so their counts
sum to at most the group size. -/
theorem wins_losses_length_le (g : List ClosedLot) :
    (winsOf g).length + (lossesOf g).length ≤ g.length := by
  induction g with
  | nil => simp [winsOf, lossesOf]
  | cons cl g ih =>
    rcases lt_trichotomy cl.profit 0 with h | h | h
    · have h2 : ¬ (0 < cl.profit) := by linarith
      simp only [winsOf, lossesOf, List.filter_cons, decide_eq_true_eq] at *
      rw [if_neg (by simpa using h2), if_pos (by simpa using h)]
      simp only [List.length_cons]
      omega
    · have h1 : ¬ (0 < cl.profit) := by rw [h]; exact lt_irrefl 0
      have h2 : ¬ (cl.profit < 0) := by rw [h]; exact lt_irrefl 0
      simp only [winsOf, lossesOf, List.filter_cons, decide_eq_true_eq] at *
      rw [if_neg (by simpa using h1), if_neg (by simpa using h2)]
      simp only [List.length_cons]
      omega
    · have h2 : ¬ (cl.profit < 0) := by linarith
      simp only [winsOf, lossesOf, List.filter_cons, decide_eq_true_eq] at *
      rw [if_pos (by simpa using h), if_neg (by simpa using h2)]
      simp only [List.length_cons]
      omega

/-- Claim C10: every aggregator output row has at least one trade (groups
are formed only from existing records), win count plus loss count at most
the trade count, and a win rate between 0 and 100. -/
theorem C10_summary_row_bounds {κ : Type} [DecidableEq κ] (lots : List ClosedLot)
    (key : ClosedLot → κ) (row : SummaryRow) (h : row ∈ analyze_summary lots key) :
    1 ≤ row.count ∧ row.wins + row.losses ≤ row.count ∧
    0 ≤ row.winRate ∧ row.winRate ≤ 100 := by
  unfold analyze_summary at h
  by_cases hl : lots = []
  · rw [if_pos hl] at h
    exact absurd h (List.not_mem_nil row)
  · rw [if_neg hl] at h
    obtain ⟨k, hk, rfl⟩ := List.mem_map.mp h
    have hkmem : k ∈ lots.map key := List.mem_dedup.mp hk
    obtain ⟨cl, hcl, hkey⟩ := List.mem_map.mp hkmem
    have hclg : cl ∈ lots.filter fun cl => decide (key cl = k) :=
      List.mem_filter.mpr ⟨hcl, by simp [hkey]⟩
    have hglen : 0 < (lots.filter fun cl => decide (key cl = k)).length :=
      List.length_pos.mpr (List.ne_nil_of_mem hclg)
    have hwl := wins_losses_length_le (lots.filter fun cl => decide (key cl = k))
    have hwle : ((winsOf (lots.filter fun cl => decide (key cl = k))).length : ℚ)
        ≤ ((lots.filter fun cl => decide (key cl = k)).length : ℚ) := by
      exact_mod_cast le_trans (Nat.le_add_right _ _) hwl
    have hlenq : (0 : ℚ) < ((lots.filter fun cl => decide (key cl = k)).length : ℚ) := by
      exact_mod_cast hglen
    refine ⟨by simpa [summarize] using hglen, by simpa [summarize] using hwl, ?_, ?_⟩
    · show 0 ≤ (summarize _).winRate
      simp only [summarize]
      rw [if_neg (by omega : ¬ (lots.filter fun cl => decide (key cl = k)).length = 0)]
      positivity
    · show (summarize _).winRate ≤ 100
      simp only [summarize]
      rw [if_neg (by omega : ¬ (lots.filter fun cl => decide (key cl = k)).length = 0)]
      have hdiv : ((winsOf (lots.filter fun cl => decide (key cl = k))).length : ℚ)
          / ((lots.filter fun cl => decide (key cl = k)).length : ℚ) ≤ 1 :=
        (div_le_one hlenq).mpr hwle
      nlinarith

/-- Witness for C10 at a concrete one-record input grouped by
instrument. -/
theorem C10_summary_row_bounds_witness :
    summarize [c8lot] ∈ analyze_summary [c8lot] (fun cl => cl.instrument) ∧
    (1 ≤ (summarize [c8lot]).count ∧
      (summarize [c8lot]).wins + (summarize [c8lot]).losses ≤ (summarize [c8lot]).count ∧
      0 ≤ (summarize [c8lot]).winRate ∧ (summarize [c8lot]).winRate ≤ 100) := by
  have hmem : summarize [c8lot] ∈ analyze_summary [c8lot] (fun cl => cl.instrument) := by
    norm_num [analyze_summary, List.dedup, List.filter, c8lot]
  exact ⟨hmem, C10_summary_row_bounds [c8lot] (fun cl => cl.instrument) _ hmem⟩

end TradeApp
